import Mathlib

/-!
# Verification of the Notion help-docs scraping pipeline

Shallow embedding of `src/main.py` (URL discovery, content postprocessing,
markdown chunking, per-document failure isolation, list-literal persistence),
with theorems settling the specification's claims about it.

Strings are modelled as `List Char`.  Python's whitespace / line-break
character classes are modelled over the Unicode code points Python uses
(`str.strip` / `re`'s `\s`, and `str.splitlines` boundaries).
-/

/-- Python whitespace class (`str.strip()` with no argument, `\s` for `str`
patterns): ASCII space, `\t\n\v\f\r`, file/group/record/unit separators,
NEL, NBSP and the Unicode space and line/paragraph separators. -/
def isSpaceChar (c : Char) : Bool :=
  c.toNat = 32 || (9 ≤ c.toNat && c.toNat ≤ 13) || (28 ≤ c.toNat && c.toNat ≤ 31) ||
  c.toNat = 133 || c.toNat = 160 || c.toNat = 0x1680 ||
  (0x2000 ≤ c.toNat && c.toNat ≤ 0x200a) ||
  c.toNat = 0x2028 || c.toNat = 0x2029 || c.toNat = 0x202f ||
  c.toNat = 0x205f || c.toNat = 0x3000

/-- Python `str.splitlines` line-boundary characters: `\n`, `\r` (with `\r\n`
counting as one boundary), `\v`, `\f`, the file/group/record separators,
NEL and the Unicode line/paragraph separators. -/
def isLineBreakChar (c : Char) : Bool :=
  c.toNat = 10 || c.toNat = 13 || c.toNat = 11 || c.toNat = 12 ||
  c.toNat = 28 || c.toNat = 29 || c.toNat = 30 ||
  c.toNat = 133 || c.toNat = 0x2028 || c.toNat = 0x2029

/-- Python `str.strip()`: drop leading and trailing whitespace characters. -/
def pyStrip (s : List Char) : List Char :=
  ((s.dropWhile isSpaceChar).reverse.dropWhile isSpaceChar).reverse

/-- Split a string at every `'\n'`, keeping the (possibly empty) piece after
the last `'\n'`; `linesOf "a\nb\n" = ["a", "b", ""]`.  This is the
newline/line structure `re.MULTILINE` anchors (`^`, `$`) see. -/
def linesOf : List Char → List (List Char)
  | [] => [[]]
  | c :: rest =>
    if c = '\n' then [] :: linesOf rest
    else
      match linesOf rest with
      | l :: ls => (c :: l) :: ls
      | [] => [[c]]

/-- Join lines back with `'\n'` separators (inverse of `linesOf`,
`"\n".join` in Python). -/
def joinN : List (List Char) → List Char
  | [] => []
  | [l] => l
  | l :: l2 :: ls => l ++ '\n' :: joinN (l2 :: ls)

/-- A line on which the regex `^#+\s.*?$` matches with the `\s` inside the
line: one or more `'#'`, then a whitespace character (the lazy `.*?$` then
extends the match to the end of the line). -/
def lineIsHeading (l : List Char) : Bool :=
  !(l.takeWhile (· = '#')).isEmpty &&
    (match l.dropWhile (· = '#') with
     | c :: _ => isSpaceChar c
     | [] => false)

/-- A line consisting solely of one or more `'#'`: here `^#+\s.*?$` can only
match by letting `\s` consume the terminating `'\n'`, after which `.*?$`
consumes the whole NEXT line. -/
def lineAllHash (l : List Char) : Bool :=
  !l.isEmpty && l.all (· = '#')

/-- Scanner for `re.split(r'(^#+\s.*?$)', text, flags=re.MULTILINE)`, working
on the `linesOf` decomposition.  `gapLines` holds the lines (plus a phantom
empty line standing for a consumed `'\n'` terminator) accumulated since the
previous match.  Produces the alternating `[gap, match, gap, …, gap]` list
that `re.split` with one capture group returns. -/
def scanAux : List (List Char) → List (List Char) → List (List Char)
  | [], gapLines => [joinN gapLines]
  | [l], gapLines =>
    if lineIsHeading l then
      [joinN (gapLines ++ [[]]), l, joinN [[]]]
    else
      [joinN (gapLines ++ [l])]
  | l :: n :: rest, gapLines =>
    if lineIsHeading l then
      joinN (gapLines ++ [[]]) :: l :: scanAux (n :: rest) [[]]
    else if lineAllHash l then
      joinN (gapLines ++ [[]]) :: (l ++ '\n' :: n) :: scanAux rest [[]]
    else
      scanAux (n :: rest) (gapLines ++ [l])

/-- `headlines = re.split(r'(^#+\s.*?$)', markdown_text, flags=re.MULTILINE)`:
alternating gap/heading-match pieces, concatenating back to the input. -/
def reSplit (markdown_text : List Char) : List (List Char) :=
  scanAux (linesOf markdown_text) []

/-- The `for i in range(1, len(headlines), 2)` pairing of
`headlines[i]` with `headlines[i + 1] if i + 1 < len(headlines) else ""`. -/
def pairUp : List (List Char) → List (List Char × List Char)
  | [] => []
  | [h] => [(h, [])]
  | h :: c :: rest => (h, c) :: pairUp rest

/-- Concatenation `headline + content` over a list of pairs. -/
def joinPairs (g : List (List Char × List Char)) : List Char :=
  (g.map (fun p => p.1 ++ p.2)).flatten

/-- The accumulation loop of `split_markdown`: before appending a
`(headline, content)` pair, if `current_section` is non-empty and would grow
past `max_chunk_size`, it is closed out (stripped) as a finished chunk; the
pair is then appended unconditionally.  The trailing non-empty
`current_section` is emitted at the end. -/
def splitLoop (max_chunk_size : Nat) :
    List (List Char × List Char) → List Char → List (List Char) → List (List Char)
  | [], current_section, sections =>
    if current_section.isEmpty then sections else sections ++ [pyStrip current_section]
  | (headline, content) :: ps, current_section, sections =>
    if !current_section.isEmpty &&
        decide (max_chunk_size < current_section.length + headline.length + content.length) then
      splitLoop max_chunk_size ps (headline ++ content) (sections ++ [pyStrip current_section])
    else
      splitLoop max_chunk_size ps (current_section ++ headline ++ content) sections

/-- `split_markdown(markdown_text, max_chunk_size=750)` from `src/main.py`:
split on heading lines, then re-assemble heading sections into chunks of at
most `max_chunk_size` characters unless a single section alone exceeds it. -/
def split_markdown (markdown_text : List Char) (max_chunk_size : Nat := 750) :
    List (List Char) :=
  splitLoop max_chunk_size (pairUp ((reSplit markdown_text).drop 1)) [] []

/-- Python `str.splitlines()` on an accumulator of the current (reversed)
line: split at every line-boundary character, without emitting a final
empty piece after a trailing boundary.  The flag records that the previous
character was `'\r'` (whose line was already emitted), so that a directly
following `'\n'` is part of the same `"\r\n"` boundary and is consumed
silently. -/
def slAux : List Char → List Char → Bool → List (List Char)
  | [], line, _ => if line.isEmpty then [] else [line.reverse]
  | c :: rest, line, skip =>
    if skip && c = '\n' then slAux rest [] false
    else if c = '\r' then line.reverse :: slAux rest [] true
    else if isLineBreakChar c then line.reverse :: slAux rest [] false
    else slAux rest (c :: line) false

/-- Python `str.splitlines()`. -/
def splitlines (s : List Char) : List (List Char) :=
  slAux s [] false

/-- `re.sub(r'\n{2,}', '\n\n', s)` as a single scan: `run` counts the pending
consecutive `'\n'` characters, flushed as `min run 2` newlines at each
non-newline character and at the end. -/
def collapseAux : List Char → Nat → List Char
  | [], run => List.replicate (min run 2) '\n'
  | c :: rest, run =>
    if c = '\n' then collapseAux rest (run + 1)
    else List.replicate (min run 2) '\n' ++ c :: collapseAux rest 0

/-- `re.sub(r'\n{2,}', '\n\n', s)`: collapse every run of two or more
newlines to exactly two. -/
def collapseNewlines (s : List Char) : List Char :=
  collapseAux s 0

/-- The postprocessing tail of `processing_html` (`src/main.py` lines 50-56):
strip each line individually, re-join with `'\n'`, then collapse newline
runs. -/
def postprocessContent (content : List Char) : List Char :=
  collapseNewlines (joinN ((splitlines content).map pyStrip))

/-- Remove a single trailing `'\n'` when present (used to state how a second
application of `postprocessContent` differs from the first). -/
def dropTrailNl (r : List Char) : List Char :=
  if r.getLast? = some '\n' then r.dropLast else r

/-- Scan deciding that a string has no run of three or more consecutive
`'\n'` characters, `run` counting the newlines immediately preceding the
current position. -/
def noTripleAux : List Char → Nat → Bool
  | [], _ => true
  | c :: rest, run =>
    if c = '\n' then (if 2 ≤ run then false else noTripleAux rest (run + 1))
    else noTripleAux rest 0

/-- NormalizedText as the spec's data model describes it: every line is free
of leading/trailing whitespace, there is no run of more than one blank line,
and every line starting with `'#'` is `#`-run followed by a space. -/
def isNormalizedText (t : List Char) : Bool :=
  (linesOf t).all (fun l => decide (pyStrip l = l)) &&
  noTripleAux t 0 &&
  (linesOf t).all (fun l =>
    if l.head? = some '#' then decide ((l.dropWhile (· = '#')).head? = some ' ')
    else true)

/-- The claim's lossless-partition property: concatenating the chunks of
`split_markdown t` reproduces `t` with only leading/trailing whitespace
removed per chunk. -/
def LosslessPartition (t : List Char) (max_chunk_size : Nat) : Prop :=
  ∃ pieces : List (List Char),
    pieces.flatten = t ∧ split_markdown t max_chunk_size = pieces.map pyStrip

/-- The piece of the input preceding the first heading match
(`headlines[0]`, never visited by the reassembly loop of
`split_markdown`). -/
def preHeadingGap (t : List Char) : List Char :=
  (reSplit t).headD []

/-- An entry of the navigation tree: `i.get("url")` returns `none` when the
`url` field is absent or null. -/
structure NavEntry where
  url : Option (List Char)

/-- A section of the navigation tree (`helpArticleTree` element) with its
list of entries. -/
structure NavSection where
  entries : List NavEntry

/-- The inner loop of `get_help_docs_urls`: for each entry in order, append
`base_url + url` when `url` is truthy (present and non-empty). -/
def sectionUrls (base_url : List Char) : List NavEntry → List (List Char)
  | [] => []
  | i :: rest =>
    match i.url with
    | some url =>
      if url.isEmpty then sectionUrls base_url rest
      else (base_url ++ url) :: sectionUrls base_url rest
    | none => sectionUrls base_url rest

/-- The URL-collection loop of `get_help_docs_urls` (`src/main.py` lines
81-97), abstracted over the already-parsed navigation tree and resolved
`base_url`. -/
def get_help_docs_urls (base_url : List Char) : List NavSection → List (List Char)
  | [] => []
  | l1 :: rest => sectionUrls base_url l1.entries ++ get_help_docs_urls base_url rest

/-- Discovery as the spec words it: all entries of all sections in order,
keeping `base_url ++ url` for exactly the entries with a present, non-empty
`url`. -/
def discoverUrlsSpec (base_url : List Char) (tree : List NavSection) : List (List Char) :=
  ((tree.map NavSection.entries).flatten).filterMap (fun e =>
    match e.url with
    | some u => if u.isEmpty then none else some (base_url ++ u)
    | none => none)

/-- An HTTP response as `requests` presents it to `fetch_url`: a status code
and a body. -/
structure Response where
  status : Nat
  text : List Char

/-- What calling `rep.raise_for_status()` would do: raise `HTTPError` (here
`.error status`) exactly on 4xx/5xx status codes. -/
def Response.raise_for_status (rep : Response) : Except Nat Unit :=
  if 400 ≤ rep.status ∧ rep.status < 600 then .error rep.status else .ok ()

/-- The body of `fetch_url` (`src/main.py` lines 24-31), abstracted over the
transport `get`.  The source line `rep.raise_for_status` is an attribute
reference, not a call, so it has no effect: the body is returned whatever
the status code is, and no exception is ever raised. -/
def fetch_url (get : List Char → Response) (url : List Char) : Except Nat (List Char) :=
  let rep := get url
  .ok rep.text

/-- The tenacity `@retry(stop=stop_after_attempt(3), ..., reraise=True)`
policy: retry on error, return the last attempt's outcome, counting the
attempts made. -/
def retryLoop (f : Unit → Except Nat (List Char)) :
    Nat → Nat → Except Nat (List Char) × Nat
  | 0, used => (f (), used + 1)
  | n + 1, used =>
    match f () with
    | .ok a => (.ok a, used + 1)
    | .error _ => retryLoop f n (used + 1)

/-- `fetch_url` under its retry decorator (3 attempts), together with the
number of attempts actually made. -/
def fetch_url_with_retry (get : List Char → Response) (url : List Char) :
    Except Nat (List Char) × Nat :=
  retryLoop (fun _ => fetch_url get url) 2 0

/-- The per-URL loop of `scrapping_notion` (`src/main.py` lines 145-154):
each URL is processed inside a `try` that extends the chunk list on success
and logs one failure (here: appends the URL to the failure log) on any
exception. -/
def scrapLoop (read : List Char → Except (List Char) (List Char)) :
    List (List Char) → List (List Char) → List (List Char) →
    List (List Char) × List (List Char)
  | [], chunks, failures => (chunks, failures)
  | url :: rest, chunks, failures =>
    match read url with
    | .ok content => scrapLoop read rest (chunks ++ split_markdown content 750) failures
    | .error _ => scrapLoop read rest chunks (failures ++ [url])

/-- `scrapping_notion` abstracted over the discovered URL list and the
per-URL `read_url` outcome (fetch + extract, which may fail): returns the
accumulated chunk sequence and the failure log. -/
def scrapping_notion (read : List Char → Except (List Char) (List Char))
    (urls : List (List Char)) : List (List Char) × List (List Char) :=
  scrapLoop read urls [] []

/-- Hex digit (lowercase) of a value below 16, as Python's `\xHH` escapes
print it (`"0123456789abcdef"[n]`). -/
def hexDigitChar (n : Nat) : Char :=
  match n with
  | 0 => '0' | 1 => '1' | 2 => '2' | 3 => '3' | 4 => '4' | 5 => '5' | 6 => '6'
  | 7 => '7' | 8 => '8' | 9 => '9' | 10 => 'a' | 11 => 'b' | 12 => 'c' | 13 => 'd'
  | 14 => 'e' | 15 => 'f' | _ => '0'

/-- Python `repr` of one character of a string literal delimited by `q`:
backslash and the delimiter are escaped, newline/carriage-return/tab get
their named escapes, other control characters get `\xHH`, everything else
is emitted literally. -/
def pyReprEscape (q : Char) (c : Char) : List Char :=
  if c = '\\' then ['\\', '\\']
  else if c = q then ['\\', q]
  else if c = '\n' then ['\\', 'n']
  else if c = '\r' then ['\\', 'r']
  else if c = '\t' then ['\\', 't']
  else if c.toNat < 32 || c.toNat = 127 then
    ['\\', 'x', hexDigitChar (c.toNat / 16), hexDigitChar (c.toNat % 16)]
  else [c]

/-- Python `repr`'s quote choice: single quotes, unless the string contains
a single quote and no double quote. -/
def pyReprQuote (s : List Char) : Char :=
  if '\'' ∈ s ∧ ¬ ('"' ∈ s) then '"' else '\''

/-- Python `repr` of a string (restricted to the escape classes above; the
repository's chunks are text, and all characters outside these classes are
emitted literally). -/
def pyRepr (s : List Char) : List Char :=
  pyReprQuote s :: (s.map (pyReprEscape (pyReprQuote s))).flatten ++ [pyReprQuote s]

/-- The exact file contents written by `save_list_to_file` (`src/main.py`
lines 129-139): `"[\n"`, then `"    " + repr(item) + ",\n"` per item, then
`"]\n"`. -/
def save_list_to_file (data_list : List (List Char)) : List Char :=
  "[\n".toList ++
    (data_list.map (fun item => "    ".toList ++ pyRepr item ++ ",\n".toList)).flatten ++
    "]\n".toList

/-- Value of a hex digit character (either case), for reading `\xHH`
escapes. -/
def hexVal (c : Char) : Option Nat :=
  if 48 ≤ c.toNat ∧ c.toNat ≤ 57 then some (c.toNat - 48)
  else if 97 ≤ c.toNat ∧ c.toNat ≤ 102 then some (c.toNat - 87)
  else if 65 ≤ c.toNat ∧ c.toNat ≤ 70 then some (c.toNat - 55)
  else none

/-- Escape-reader state for `parseStringBody`: reading normal characters,
just after a backslash, or expecting the first/second digit of `\xHH`. -/
inductive EscState where
  | normal
  | esc
  | hex0
  | hex1 (hi : Nat)

/-- One-character-at-a-time reader for the body of a Python string literal
delimited by `q` (modelling the external re-load contract of the Sink):
consumes characters up to the closing quote, decoding backslash escapes;
returns the decoded string and the rest of the input. -/
def psbAux (q : Char) : List Char → EscState → Option (List Char × List Char)
  | [], _ => none
  | c :: rest, .normal =>
    if c = '\\' then psbAux q rest .esc
    else if c = q then some ([], rest)
    else (psbAux q rest .normal).map (fun r => (c :: r.1, r.2))
  | c :: rest, .esc =>
    if c = '\\' then (psbAux q rest .normal).map (fun r => ('\\' :: r.1, r.2))
    else if c = '\'' then (psbAux q rest .normal).map (fun r => ('\'' :: r.1, r.2))
    else if c = '"' then (psbAux q rest .normal).map (fun r => ('"' :: r.1, r.2))
    else if c = 'n' then (psbAux q rest .normal).map (fun r => ('\n' :: r.1, r.2))
    else if c = 'r' then (psbAux q rest .normal).map (fun r => ('\r' :: r.1, r.2))
    else if c = 't' then (psbAux q rest .normal).map (fun r => ('\t' :: r.1, r.2))
    else if c = 'x' then psbAux q rest .hex0
    else none
  | c :: rest, .hex0 =>
    match hexVal c with
    | some a => psbAux q rest (.hex1 a)
    | none => none
  | c :: rest, .hex1 a =>
    match hexVal c with
    | some b => (psbAux q rest .normal).map (fun r => (Char.ofNat (16 * a + b) :: r.1, r.2))
    | none => none

/-- Reader for a whole string-literal body: start in the normal state. -/
def parseStringBody (q : Char) (input : List Char) : Option (List Char × List Char) :=
  psbAux q input .normal

/-- Reader for the item lines of the persisted file after the opening
`"[\n"`: either the closing `"]\n"` (end of input), or four spaces, a quoted
string, and `",\n"`, repeated.  `fuel` only bounds the recursion; one unit
is spent per item. -/
def parseItemsF : Nat → List Char → Option (List (List Char))
  | _, ']' :: '\n' :: [] => some []
  | fuel + 1, ' ' :: ' ' :: ' ' :: ' ' :: q :: rest =>
    if q = '\'' ∨ q = '"' then
      match parseStringBody q rest with
      | some (s, rest2) =>
        match rest2 with
        | ',' :: '\n' :: rest3 => (parseItemsF fuel rest3).map (fun items => s :: items)
        | _ => none
      | none => none
    else none
  | _, _ => none

/-- Reader for the whole persisted file, inverse of `save_list_to_file`:
expects `"[\n"`, the item lines, and the closing `"]\n"` consuming the whole
input. -/
def parseResultsFile (file : List Char) : Option (List (List Char)) :=
  match file with
  | '[' :: '\n' :: rest => parseItemsF rest.length rest
  | _ => none

/-! ## Helper lemmas -/

lemma joinPairs_nil : joinPairs [] = [] := rfl

lemma joinPairs_cons (p : List Char × List Char) (g : List (List Char × List Char)) :
    joinPairs (p :: g) = (p.1 ++ p.2) ++ joinPairs g := by
  simp [joinPairs]

lemma joinPairs_append (g1 g2 : List (List Char × List Char)) :
    joinPairs (g1 ++ g2) = joinPairs g1 ++ joinPairs g2 := by
  simp [joinPairs]

lemma lineIsHeading_head {l : List Char} (h : lineIsHeading l = true) :
    l.head? = some '#' := by
  cases l with
  | nil => simp [lineIsHeading] at h
  | cons c rest =>
    by_cases hc : c = '#'
    · simp [hc]
    · simp [lineIsHeading, List.takeWhile_cons, hc] at h

lemma lineAllHash_head {l : List Char} (h : lineAllHash l = true) :
    l.head? = some '#' := by
  cases l with
  | nil => simp [lineAllHash] at h
  | cons c rest =>
    simp only [lineAllHash, List.all_cons, Bool.and_eq_true, decide_eq_true_eq] at h
    simp [h.2.1]

lemma pyStrip_head_sharp {s : List Char} (h : s.head? = some '#') :
    (pyStrip s).head? = some '#' := by
  cases s with
  | nil => simp at h
  | cons c rest =>
    simp only [List.head?_cons, Option.some.injEq] at h
    subst h
    have hsharp : isSpaceChar '#' = false := by decide
    have h1 : ('#' :: rest).dropWhile isSpaceChar = '#' :: rest := by
      simp [List.dropWhile_cons, hsharp]
    rw [pyStrip, h1]
    have h2 : ∀ v : List Char, ∃ l', (v ++ ['#']).dropWhile isSpaceChar = l' ++ ['#'] := by
      intro v
      induction v with
      | nil => exact ⟨[], by simp [List.dropWhile_cons, hsharp]⟩
      | cons d v' ihv =>
        cases hd : isSpaceChar d with
        | true =>
          obtain ⟨l', hl'⟩ := ihv
          exact ⟨l', by simp [List.dropWhile_cons, hd, hl']⟩
        | false => exact ⟨d :: v', by simp [List.dropWhile_cons, hd]⟩
    obtain ⟨l', hl'⟩ := h2 rest.reverse
    rw [List.reverse_cons, hl']
    simp [hsharp]

lemma pyStrip_ne_nil_of_head_sharp {s : List Char} (h : s.head? = some '#') :
    pyStrip s ≠ [] := by
  intro hnil
  have := pyStrip_head_sharp h
  rw [hnil] at this
  simp at this

lemma pyStrip_length_le (s : List Char) : (pyStrip s).length ≤ s.length := by
  rw [pyStrip, List.length_reverse]
  calc ((s.dropWhile isSpaceChar).reverse.dropWhile isSpaceChar).length
      ≤ (s.dropWhile isSpaceChar).reverse.length :=
        (List.dropWhile_sublist _).length_le
    _ = (s.dropWhile isSpaceChar).length := List.length_reverse _
    _ ≤ s.length := (List.dropWhile_sublist _).length_le

lemma pairUp_eq_nil_iff (xs : List (List Char)) : pairUp xs = [] ↔ xs = [] := by
  cases xs with
  | nil => simp [pairUp]
  | cons h rest =>
    cases rest with
    | nil => simp [pairUp]
    | cons c rest' => simp [pairUp]

lemma scanAux_ne_nil (ls gapLines : List (List Char)) : scanAux ls gapLines ≠ [] := by
  induction ls, gapLines using scanAux.induct with
  | case1 gap => simp [scanAux]
  | case2 l gap h => simp [scanAux, h]
  | case3 l gap h => simp [scanAux, h]
  | case4 l n rest gap h ih => simp [scanAux, h]
  | case5 l n rest gap h h2 ih => simp [scanAux, h, h2]
  | case6 l n rest gap h h2 ih => simpa [scanAux, h, h2] using ih


lemma joinN_append_single (g : List (List Char)) (x : List Char) :
    joinN (g ++ [x]) = joinN (g ++ [[]]) ++ x := by
  induction g with
  | nil => simp [joinN]
  | cons a g' ih =>
    cases g' with
    | nil => simp [joinN]
    | cons b g'' =>
      simp only [List.cons_append, joinN, List.append_eq]
      rw [List.cons_append] at ih
      rw [ih]
      simp

lemma joinN_append_cons₂ (g : List (List Char)) (x y : List Char) (ys : List (List Char)) :
    joinN (g ++ x :: y :: ys) = joinN (g ++ [x]) ++ '\n' :: joinN (y :: ys) := by
  induction g with
  | nil => simp [joinN]
  | cons a g' ih =>
    cases g' with
    | nil => simp [joinN]
    | cons b g'' =>
      simp only [List.cons_append, joinN, List.append_eq]
      rw [List.cons_append] at ih
      rw [ih]
      simp

lemma scanAux_flatten (ls gapLines : List (List Char)) :
    (scanAux ls gapLines).flatten = joinN (gapLines ++ ls) := by
  induction ls, gapLines using scanAux.induct with
  | case1 gap => simp [scanAux, joinN]
  | case2 l gap h =>
    rw [show joinN (gap ++ [l]) = joinN (gap ++ [[]]) ++ l from joinN_append_single gap l]
    simp [scanAux, h, joinN]
  | case3 l gap h => simp [scanAux, h]
  | case4 l n rest gap h ih =>
    rw [joinN_append_cons₂ gap l n rest,
      show joinN (gap ++ [l]) = joinN (gap ++ [[]]) ++ l from joinN_append_single gap l]
    simp only [scanAux, h, if_true, List.flatten_cons, ih]
    cases rest with
    | nil => simp [joinN]
    | cons r rest' => simp [joinN]
  | case5 l n rest gap h h2 ih =>
    rw [joinN_append_cons₂ gap l n rest,
      show joinN (gap ++ [l]) = joinN (gap ++ [[]]) ++ l from joinN_append_single gap l]
    simp only [scanAux, h, h2, if_true, if_false, Bool.false_eq_true, List.flatten_cons, ih]
    cases rest with
    | nil => simp [joinN]
    | cons r rest' => simp [joinN]
  | case6 l n rest gap h h2 ih =>
    simp only [scanAux, h, h2, if_false, Bool.false_eq_true]
    rw [ih]
    simp

lemma scanAux_pair_heads (ls gapLines : List (List Char)) :
    ∀ p ∈ pairUp ((scanAux ls gapLines).drop 1), p.1.head? = some '#' := by
  induction ls, gapLines using scanAux.induct with
  | case1 gap => simp [scanAux, pairUp]
  | case2 l gap h =>
    intro p hp
    simp only [scanAux, h, if_true, List.drop_succ_cons, List.drop_zero, pairUp,
      List.mem_singleton] at hp
    rw [hp]
    exact lineIsHeading_head h
  | case3 l gap h => simp [scanAux, h, pairUp]
  | case4 l n rest gap h ih =>
    intro p hp
    simp only [scanAux, h, if_true, List.drop_succ_cons, List.drop_zero] at hp
    cases hS : scanAux (n :: rest) [[]] with
    | nil => exact absurd hS (scanAux_ne_nil _ _)
    | cons s0 S' =>
      rw [hS] at hp
      rw [pairUp] at hp
      rcases List.mem_cons.mp hp with hEq | hMem
      · rw [hEq]; exact lineIsHeading_head h
      · rw [hS] at ih
        exact ih p (by simpa using hMem)
  | case5 l n rest gap h h2 ih =>
    intro p hp
    simp only [scanAux, h, h2, if_true, if_false, Bool.false_eq_true,
      List.drop_succ_cons, List.drop_zero] at hp
    cases hS : scanAux rest [[]] with
    | nil => exact absurd hS (scanAux_ne_nil _ _)
    | cons s0 S' =>
      rw [hS] at hp
      rw [pairUp] at hp
      rcases List.mem_cons.mp hp with hEq | hMem
      · rw [hEq]
        have hl := lineAllHash_head h2
        cases l with
        | nil => simp at hl
        | cons c l' => simp at hl ⊢; exact hl
      · rw [hS] at ih
        exact ih p (by simpa using hMem)
  | case6 l n rest gap h h2 ih =>
    intro p hp
    simp only [scanAux, h, h2, if_false, Bool.false_eq_true] at hp
    exact ih p hp

lemma joinPairs_pairUp (xs : List (List Char)) : joinPairs (pairUp xs) = xs.flatten := by
  induction xs using pairUp.induct with
  | case1 => rfl
  | case2 h => simp [pairUp, joinPairs]
  | case3 h c rest ih =>
    rw [pairUp, joinPairs_cons, ih]
    simp

lemma isEmpty_false_of_ne_nil {l : List Char} (h : l ≠ []) : l.isEmpty = false := by
  cases l with
  | nil => exact absurd rfl h
  | cons a t => rfl

lemma joinPairs_ne_nil {g : List (List Char × List Char)} (hne : g ≠ [])
    (hh : ∀ p ∈ g, p.1.head? = some '#') : joinPairs g ≠ [] := by
  cases g with
  | nil => exact absurd rfl hne
  | cons p g' =>
    rw [joinPairs_cons]
    have := hh p (List.mem_cons_self _ _)
    cases hp1 : p.1 with
    | nil => rw [hp1] at this; simp at this
    | cons a t => simp

/-- Main accumulation invariant of `split_markdown`'s loop: starting from a
current section that is the concatenation of the pairs `cs` (all of whose
headlines start with `'#'`), the loop emits the strip of a concatenation of
each group of a partition `groups` of `cs ++ ps`, every group is non-empty,
and a group of two or more sections never exceeds `max_chunk_size`
characters. -/
lemma splitLoop_spec (max : Nat) (ps : List (List Char × List Char)) :
    ∀ (cs : List (List Char × List Char)) (sections : List (List Char)),
    (∀ p ∈ cs ++ ps, p.1.head? = some '#') →
    (2 ≤ cs.length → (joinPairs cs).length ≤ max) →
    ∃ groups : List (List (List Char × List Char)),
      splitLoop max ps (joinPairs cs) sections =
        sections ++ groups.map (fun g => pyStrip (joinPairs g)) ∧
      groups.flatten = cs ++ ps ∧
      (∀ g ∈ groups, g ≠ []) ∧
      (∀ g ∈ groups, 2 ≤ g.length → (joinPairs g).length ≤ max) := by
  induction ps with
  | nil =>
    intro cs sections hh hb
    by_cases hcs : cs = []
    · subst hcs
      exact ⟨[], by simp [splitLoop, joinPairs], by simp, by simp, by simp⟩
    · have hne : (joinPairs cs).isEmpty = false := by
        exact isEmpty_false_of_ne_nil (joinPairs_ne_nil hcs (fun p hp => hh p (by simpa using hp)))
      refine ⟨[cs], ?_, by simp, by simp [hcs], ?_⟩
      · simp [splitLoop, hne]
      · intro g hg
        rw [List.mem_singleton] at hg
        subst hg
        exact hb
  | cons p ps' ih =>
    obtain ⟨h, c⟩ := p
    intro cs sections hh hb
    by_cases hcs : cs = []
    · subst hcs
      have hstep : splitLoop max ((h, c) :: ps') (joinPairs []) sections =
          splitLoop max ps' (joinPairs [(h, c)]) sections := by
        simp [splitLoop, joinPairs]
      obtain ⟨groups, h1, h2, h3, h4⟩ := ih [(h, c)] sections
        (by intro p hp; exact hh p (by simpa using hp))
        (by intro h2le; simp at h2le)
      exact ⟨groups, by rw [hstep, h1], by simpa using h2, h3, h4⟩
    · have hne : (joinPairs cs).isEmpty = false := by
        exact isEmpty_false_of_ne_nil (joinPairs_ne_nil hcs (fun p hp => hh p (by simp [hp])))
      by_cases hlen : max < (joinPairs cs).length + h.length + c.length
      · have hcond : (!(joinPairs cs).isEmpty &&
            decide (max < (joinPairs cs).length + h.length + c.length)) = true := by
          rw [hne, decide_eq_true hlen]
          rfl
        have hjp : joinPairs [(h, c)] = h ++ c := by simp [joinPairs]
        have hstep : splitLoop max ((h, c) :: ps') (joinPairs cs) sections =
            splitLoop max ps' (joinPairs [(h, c)])
              (sections ++ [pyStrip (joinPairs cs)]) := by
          rw [hjp]
          simp only [splitLoop]
          rw [hcond]
          simp
        obtain ⟨groups, h1, h2, h3, h4⟩ := ih [(h, c)] (sections ++ [pyStrip (joinPairs cs)])
          (by intro p hp; apply hh p; simp at hp ⊢; tauto)
          (by intro h2le; simp at h2le)
        refine ⟨cs :: groups, ?_, ?_, ?_, ?_⟩
        · rw [hstep, h1]
          simp
        · simp [h2]
        · intro g hg
          rcases List.mem_cons.mp hg with hEq | hMem
          · subst hEq; exact hcs
          · exact h3 g hMem
        · intro g hg
          rcases List.mem_cons.mp hg with hEq | hMem
          · subst hEq; exact hb
          · exact h4 g hMem
      · have hcond : (!(joinPairs cs).isEmpty &&
            decide (max < (joinPairs cs).length + h.length + c.length)) = false := by
          rw [hne, decide_eq_false hlen]
          rfl
        have hjp : joinPairs (cs ++ [(h, c)]) = joinPairs cs ++ h ++ c := by
          rw [joinPairs_append]
          simp [joinPairs, List.append_assoc]
        have hstep : splitLoop max ((h, c) :: ps') (joinPairs cs) sections =
            splitLoop max ps' (joinPairs (cs ++ [(h, c)])) sections := by
          rw [hjp]
          simp only [splitLoop]
          rw [hcond]
          simp
        obtain ⟨groups, h1, h2, h3, h4⟩ := ih (cs ++ [(h, c)]) sections
          (by intro p hp; apply hh p; simp at hp ⊢; tauto)
          (by
            intro _
            rw [joinPairs_append, List.length_append]
            have : (joinPairs [(h, c)]).length = h.length + c.length := by
              simp [joinPairs]
            rw [this]
            omega)
        exact ⟨groups, by rw [hstep, h1], by simpa using h2, h3, h4⟩

lemma linesOf_ne_nil (t : List Char) : linesOf t ≠ [] := by
  cases t with
  | nil => simp [linesOf]
  | cons c rest =>
    rw [linesOf]
    by_cases hc : c = '\n'
    · simp [hc]
    · simp only [hc, if_false]
      cases linesOf rest with
      | nil => simp
      | cons l ls => simp

lemma joinN_cons_cons (x y : List Char) (ys : List (List Char)) :
    joinN (x :: y :: ys) = x ++ '\n' :: joinN (y :: ys) := rfl

lemma joinN_linesOf (t : List Char) : joinN (linesOf t) = t := by
  induction t with
  | nil => rfl
  | cons c rest ih =>
    rw [linesOf]
    by_cases hc : c = '\n'
    · subst hc
      simp only [if_true]
      cases hr : linesOf rest with
      | nil => exact absurd hr (linesOf_ne_nil rest)
      | cons l0 ls =>
        rw [joinN_cons_cons]
        rw [hr] at ih
        rw [ih]
        simp
    · simp only [hc, if_false]
      cases hr : linesOf rest with
      | nil => exact absurd hr (linesOf_ne_nil rest)
      | cons l0 ls =>
        rw [hr] at ih
        cases ls with
        | nil =>
          simp only [joinN] at ih ⊢
          rw [ih]
        | cons l1 ls' =>
          rw [joinN_cons_cons] at ih ⊢
          simp only [List.cons_append]
          rw [ih]

lemma reSplit_flatten (t : List Char) : (reSplit t).flatten = t := by
  rw [reSplit, scanAux_flatten]
  simpa using joinN_linesOf t

/-- The chunks of `split_markdown t` are the strips of the concatenations of
the groups of a partition of the (headline, content) pairs of `t`. -/
lemma split_markdown_groups (t : List Char) (max : Nat) :
    ∃ groups : List (List (List Char × List Char)),
      split_markdown t max = groups.map (fun g => pyStrip (joinPairs g)) ∧
      groups.flatten = pairUp ((reSplit t).drop 1) ∧
      (∀ g ∈ groups, g ≠ []) ∧
      (∀ g ∈ groups, 2 ≤ g.length → (joinPairs g).length ≤ max) := by
  have hh : ∀ p ∈ ([] : List (List Char × List Char)) ++ pairUp ((reSplit t).drop 1),
      p.1.head? = some '#' := by
    intro p hp
    exact scanAux_pair_heads (linesOf t) [] p (by simpa [reSplit] using hp)
  obtain ⟨groups, h1, h2, h3, h4⟩ :=
    splitLoop_spec max (pairUp ((reSplit t).drop 1)) [] [] hh (by simp)
  exact ⟨groups, by simpa [split_markdown, joinPairs] using h1, by simpa using h2, h3, h4⟩

lemma flatten_map_joinPairs (groups : List (List (List Char × List Char))) :
    (groups.map joinPairs).flatten = joinPairs groups.flatten := by
  induction groups with
  | nil => rfl
  | cons g gs ihg => simp [joinPairs_append, ihg]

/-- C1 (amended): concatenating the chunks of `split_markdown t` in order
reproduces `t` with the pre-first-heading gap removed and only
leading/trailing whitespace removed per chunk; no characters from inside a
heading-section are lost or duplicated. -/
theorem split_markdown_lossless_after_first_heading (t : List Char) (max_chunk_size : Nat) :
    ∃ pieces : List (List Char),
      split_markdown t max_chunk_size = pieces.map pyStrip ∧
      preHeadingGap t ++ pieces.flatten = t := by
  obtain ⟨groups, h1, h2, _, _⟩ := split_markdown_groups t max_chunk_size
  refine ⟨groups.map joinPairs, ?_, ?_⟩
  · rw [h1]; simp
  · rw [flatten_map_joinPairs, h2, joinPairs_pairUp]
    have hne := scanAux_ne_nil (linesOf t) []
    have hfl := reSplit_flatten t
    cases hr : reSplit t with
    | nil => exact absurd (by simpa [reSplit] using hr) hne
    | cons g0 rest =>
      rw [hr] at hfl
      simp only [List.flatten_cons] at hfl
      have hpre : preHeadingGap t = g0 := by simp [preHeadingGap, hr]
      rw [hpre]
      simpa using hfl

/-- C1 (counterexample): on the NormalizedText `"hello\n# A\nb"` the chunks
of `split_markdown` cannot reproduce the input, because the text before the
first heading is discarded. -/
theorem split_markdown_losslessness_counterexample :
    isNormalizedText "hello\n# A\nb".toList = true ∧
    ¬ LosslessPartition "hello\n# A\nb".toList 750 := by
  constructor
  · decide
  · rintro ⟨pieces, hflat, hmap⟩
    have hsm : split_markdown "hello\n# A\nb".toList 750 = ["# A\nb".toList] := by decide
    rw [hsm] at hmap
    cases pieces with
    | nil => simp at hmap
    | cons p rest =>
      cases rest with
      | cons q rest' => simp at hmap
      | nil =>
        have hp : p = "hello\n# A\nb".toList := by simpa using hflat
        subst hp
        have : ("# A\nb".toList : List Char) = pyStrip "hello\n# A\nb".toList := by
          simpa using hmap
        exact absurd this (by decide)

/-- C2: a chunk of `split_markdown` made of two or more heading-sections
never exceeds `max_chunk_size`; only a chunk that is a single oversized
heading-section may exceed the bound, and no heading-section is ever split
in its middle (every chunk is the strip of a concatenation of whole
(headline, content) sections). -/
theorem split_markdown_soft_bound (t : List Char) (max_chunk_size : Nat) :
    ∃ groups : List (List (List Char × List Char)),
      split_markdown t max_chunk_size = groups.map (fun g => pyStrip (joinPairs g)) ∧
      groups.flatten = pairUp ((reSplit t).drop 1) ∧
      ∀ g ∈ groups, g ≠ [] ∧
        (2 ≤ g.length → (pyStrip (joinPairs g)).length ≤ max_chunk_size) := by
  obtain ⟨groups, h1, h2, h3, h4⟩ := split_markdown_groups t max_chunk_size
  exact ⟨groups, h1, h2, fun g hg =>
    ⟨h3 g hg, fun h2le => le_trans (pyStrip_length_le _) (h4 g hg h2le)⟩⟩

/-- C10: every chunk of `split_markdown` is non-empty and starts with `'#'`
(the first character of its first headline), and the text before the first
heading match is discarded: the chunks are strips of pieces covering only
the input after the pre-heading gap. -/
theorem split_markdown_chunks_heading_aligned (t : List Char) (max_chunk_size : Nat) :
    (∀ chunk ∈ split_markdown t max_chunk_size,
      chunk ≠ [] ∧ chunk.head? = some '#') ∧
    ∃ pieces : List (List Char),
      split_markdown t max_chunk_size = pieces.map pyStrip ∧
      preHeadingGap t ++ pieces.flatten = t := by
  obtain ⟨groups, h1, h2, h3, _⟩ := split_markdown_groups t max_chunk_size
  constructor
  · intro chunk hmem
    rw [h1] at hmem
    obtain ⟨g, hg, hchunk⟩ := List.mem_map.mp hmem
    have hheads : ∀ p ∈ g, p.1.head? = some '#' := by
      intro p hp
      have hp' : p ∈ groups.flatten := List.mem_flatten.mpr ⟨g, hg, hp⟩
      rw [h2] at hp'
      exact scanAux_pair_heads (linesOf t) [] p (by simpa [reSplit] using hp')
    cases g with
    | nil => exact absurd rfl (h3 _ hg)
    | cons p g' =>
      have hph := hheads p (List.mem_cons_self _ _)
      have hjh : (joinPairs (p :: g')).head? = some '#' := by
        rw [joinPairs_cons]
        cases hp1 : p.1 with
        | nil => rw [hp1] at hph; simp at hph
        | cons a tl =>
          rw [hp1] at hph
          simp only [List.head?_cons, Option.some.injEq] at hph
          simp [hp1, hph]
      rw [← hchunk]
      exact ⟨pyStrip_ne_nil_of_head_sharp hjh, pyStrip_head_sharp hjh⟩
  · refine ⟨groups.map joinPairs, by rw [h1]; simp, ?_⟩
    rw [flatten_map_joinPairs, h2, joinPairs_pairUp]
    have hne := scanAux_ne_nil (linesOf t) []
    have hfl := reSplit_flatten t
    cases hr : reSplit t with
    | nil => exact absurd (by simpa [reSplit] using hr) hne
    | cons g0 rest =>
      rw [hr] at hfl
      simp only [List.flatten_cons] at hfl
      have hpre : preHeadingGap t = g0 := by simp [preHeadingGap, hr]
      rw [hpre]
      simpa using hfl

/-- C10 (witness): on the concrete input `"# A\nb"` the single chunk is
non-empty and starts with `'#'`. -/
theorem split_markdown_chunks_heading_aligned_witness :
    ("# A\nb".toList ≠ ([] : List Char)) ∧ "# A\nb".toList.head? = some '#' :=
  (split_markdown_chunks_heading_aligned "# A\nb".toList 750).1 "# A\nb".toList (by decide)

lemma linesOf_chars {t : List Char} : ∀ l ∈ linesOf t, ∀ c ∈ l, c ∈ t := by
  induction t with
  | nil => intro l hl c hc; simp [linesOf] at hl; subst hl; simp at hc
  | cons a rest ih =>
    intro l hl c hc
    rw [linesOf] at hl
    by_cases ha : a = '\n'
    · rw [ha] at hl
      simp only [if_true] at hl
      rcases List.mem_cons.mp hl with hEq | hMem
      · subst hEq; simp at hc
      · exact List.mem_cons_of_mem _ (ih l hMem c hc)
    · simp only [ha, if_false] at hl
      cases hr : linesOf rest with
      | nil => exact absurd hr (linesOf_ne_nil rest)
      | cons l0 ls =>
        rw [hr] at hl
        rcases List.mem_cons.mp hl with hEq | hMem
        · subst hEq
          rcases List.mem_cons.mp hc with hEq' | hMem'
          · subst hEq'; exact List.mem_cons_self _ _
          · exact List.mem_cons_of_mem _ (ih l0 (by rw [hr]; exact List.mem_cons_self _ _) c hMem')
        · exact List.mem_cons_of_mem _
            (ih l (by rw [hr]; exact List.mem_cons_of_mem _ hMem) c hc)

lemma all_space_no_heading {l : List Char} (h : ∀ c ∈ l, isSpaceChar c = true) :
    lineIsHeading l = false ∧ lineAllHash l = false := by
  cases l with
  | nil => exact ⟨rfl, rfl⟩
  | cons a t =>
    have ha : a ≠ '#' := by
      intro hEq
      have := h a (List.mem_cons_self _ _)
      rw [hEq] at this
      exact absurd this (by decide)
    constructor
    · simp [lineIsHeading, List.takeWhile_cons, ha]
    · simp [lineAllHash, ha]

lemma scanAux_no_match :
    ∀ (ls g : List (List Char)),
      (∀ l ∈ ls, lineIsHeading l = false ∧ lineAllHash l = false) →
      scanAux ls g = [joinN (g ++ ls)] := by
  intro ls g
  induction ls, g using scanAux.induct with
  | case1 gap => intro _; simp [scanAux]
  | case2 l gap hl =>
    intro hno
    exact absurd hl (by simp [(hno l (by simp)).1])
  | case3 l gap hl => intro _; simp [scanAux, hl]
  | case4 l n rest gap hl ih =>
    intro hno
    exact absurd hl (by simp [(hno l (by simp)).1])
  | case5 l n rest gap hl hl2 ih =>
    intro hno
    exact absurd hl2 (by simp [(hno l (by simp)).2])
  | case6 l n rest gap hl hl2 ih =>
    intro hno
    rw [scanAux, if_neg (by simp [hl]), if_neg (by simp [hl2])]
    rw [ih (fun l' hl' => hno l' (List.mem_cons_of_mem _ hl'))]
    simp

/-- C3 (amended): `split_markdown` is total; it returns the empty chunk list
exactly when the input has no heading match (`re.split` returns a single
piece), and in particular returns `[]` on whitespace-only and empty inputs.
A non-empty input with no heading line also yields no chunks. -/
theorem split_markdown_totality (t : List Char) (max_chunk_size : Nat) :
    (split_markdown t max_chunk_size = [] ↔ (reSplit t).drop 1 = []) ∧
    ((∀ c ∈ t, isSpaceChar c = true) → split_markdown t max_chunk_size = []) ∧
    (t = [] → split_markdown t max_chunk_size = []) := by
  have hiff : split_markdown t max_chunk_size = [] ↔ (reSplit t).drop 1 = [] := by
    constructor
    · intro hempty
      obtain ⟨groups, h1, h2, _, _⟩ := split_markdown_groups t max_chunk_size
      rw [hempty] at h1
      have hg : groups = [] := by
        cases groups with
        | nil => rfl
        | cons g gs => simp at h1
      rw [hg] at h2
      have := h2.symm
      rwa [List.flatten_nil, pairUp_eq_nil_iff] at this
      
    · intro hdrop
      have : pairUp ((reSplit t).drop 1) = [] := by rw [hdrop]; rfl
      rw [split_markdown, this]
      rfl
  refine ⟨hiff, ?_, ?_⟩
  · intro hsp
    rw [hiff]
    have hno : ∀ l ∈ linesOf t, lineIsHeading l = false ∧ lineAllHash l = false :=
      fun l hl => all_space_no_heading (fun c hc => hsp c (linesOf_chars l hl c hc))
    rw [reSplit, scanAux_no_match (linesOf t) [] hno]
    rfl
  · intro ht
    subst ht
    rw [hiff]
    rw [show reSplit [] = [[]] from by decide]
    rfl

/-- C3 (witness): whitespace-only input yields the empty chunk sequence. -/
theorem split_markdown_totality_witness :
    split_markdown " \n ".toList 750 = [] :=
  (split_markdown_totality " \n ".toList 750).2.1 (by decide)

/-- C3 (counterexample): `"hello"` is a non-empty (and non-whitespace) input
on which `split_markdown` returns no chunk at all, refuting "at least one
chunk for non-empty input". -/
theorem split_markdown_totality_counterexample :
    split_markdown "hello".toList 750 = [] ∧ "hello".toList ≠ ([] : List Char) ∧
    ¬ (∀ c ∈ "hello".toList, isSpaceChar c = true) := by
  refine ⟨by decide, by decide, by decide⟩

lemma linesOf_append_newline (l t : List Char) (hl : '\n' ∉ l) :
    linesOf (l ++ '\n' :: t) = l :: linesOf t := by
  induction l with
  | nil => simp [linesOf]
  | cons c l' ih =>
    have hc : c ≠ '\n' := fun h => hl (h ▸ List.mem_cons_self _ _)
    have hl' : '\n' ∉ l' := fun h => hl (List.mem_cons_of_mem _ h)
    rw [List.cons_append, linesOf, if_neg hc, ih hl']

lemma linesOf_no_newline (s : List Char) (h : '\n' ∉ s) : linesOf s = [s] := by
  induction s with
  | nil => rfl
  | cons c s' ih =>
    have hc : c ≠ '\n' := fun hEq => h (hEq ▸ List.mem_cons_self _ _)
    have h' : '\n' ∉ s' := fun hm => h (List.mem_cons_of_mem _ hm)
    rw [linesOf, if_neg hc, ih h']

lemma pyStrip_eq_self {s : List Char}
    (hh : ∀ c, s.head? = some c → isSpaceChar c = false)
    (hl : ∀ c, s.getLast? = some c → isSpaceChar c = false) : pyStrip s = s := by
  cases s with
  | nil => rfl
  | cons a t =>
    have ha : isSpaceChar a = false := hh a rfl
    have hdwa : List.dropWhile isSpaceChar (a :: t) = a :: t := by
      rw [List.dropWhile_cons]
      simp [ha]
    rw [pyStrip, hdwa]
    cases hrev : (a :: t).reverse with
    | nil => simp at hrev
    | cons b rr =>
      have hb : (a :: t).getLast? = some b := by
        rw [← List.head?_reverse, hrev]; rfl
      have hbn := hl b hb
      have hdwb : List.dropWhile isSpaceChar (b :: rr) = b :: rr := by
        rw [List.dropWhile_cons]
        simp [hbn]
      rw [hdwb, ← hrev, List.reverse_reverse]

lemma splitLoop_cons_keep (max : Nat) (h c cur : List Char)
    (ps : List (List Char × List Char)) (secs : List (List Char))
    (hcond : (!cur.isEmpty &&
      decide (max < cur.length + h.length + c.length)) = false) :
    splitLoop max ((h, c) :: ps) cur secs = splitLoop max ps (cur ++ h ++ c) secs := by
  simp only [splitLoop]
  rw [hcond]
  simp

lemma splitLoop_cons_close (max : Nat) (h c cur : List Char)
    (ps : List (List Char × List Char)) (secs : List (List Char))
    (hne : cur.isEmpty = false) (hgt : max < cur.length + h.length + c.length) :
    splitLoop max ((h, c) :: ps) cur secs =
      splitLoop max ps (h ++ c) (secs ++ [pyStrip cur]) := by
  have hcond : (!cur.isEmpty &&
      decide (max < cur.length + h.length + c.length)) = true := by
    rw [hne, decide_eq_true hgt]
    rfl
  simp only [splitLoop]
  rw [hcond]
  simp

lemma splitLoop_nil_emit (max : Nat) (cur : List Char) (secs : List (List Char))
    (hne : cur.isEmpty = false) :
    splitLoop max [] cur secs = secs ++ [pyStrip cur] := by
  simp only [splitLoop]
  rw [hne]
  simp

/-- C4: the spec's concrete chunking example: `"# A\nshort\n# B\n"` followed
by 800 `'x'` characters splits (at 750) into exactly the two chunks
`"# A\nshort"` and `"# B\n" ++ "x"*800` — the second, a single oversized
heading-section, exceeds the bound. -/
theorem split_markdown_example_two_chunks :
    split_markdown ("# A\nshort\n# B\n".toList ++ List.replicate 800 'x') 750 =
      ["# A\nshort".toList, "# B\n".toList ++ List.replicate 800 'x'] := by
  have hx_cons : List.replicate 800 'x' = 'x' :: List.replicate 799 'x' := by
    rw [show (800 : Nat) = 799 + 1 from rfl, List.replicate_succ]
  have hx_ne : List.replicate 800 'x' ≠ [] := by
    rw [hx_cons]; exact List.cons_ne_nil _ _
  have hx_nonl : '\n' ∉ List.replicate 800 'x' := by
    intro h
    have := List.eq_of_mem_replicate h
    simp at this
  have hshape : "# A\nshort\n# B\n".toList ++ List.replicate 800 'x' =
      ['#', ' ', 'A'] ++ '\n' ::
        (['s', 'h', 'o', 'r', 't'] ++ '\n' ::
          (['#', ' ', 'B'] ++ '\n' :: List.replicate 800 'x')) := rfl
  have hlines : linesOf ("# A\nshort\n# B\n".toList ++ List.replicate 800 'x') =
      [['#', ' ', 'A'], ['s', 'h', 'o', 'r', 't'], ['#', ' ', 'B'],
        List.replicate 800 'x'] := by
    rw [hshape, linesOf_append_newline _ _ (by decide),
      linesOf_append_newline _ _ (by decide), linesOf_append_newline _ _ (by decide),
      linesOf_no_newline _ hx_nonl]
  have hxh : lineIsHeading (List.replicate 800 'x') = false := by
    have htw : (List.replicate 800 'x').takeWhile (· = '#') = [] := by
      rw [hx_cons, List.takeWhile_cons, if_neg (by decide)]
    rw [lineIsHeading, htw]
    rfl
  have hscan : reSplit ("# A\nshort\n# B\n".toList ++ List.replicate 800 'x') =
      [[], ['#', ' ', 'A'], '\n' :: 's' :: 'h' :: 'o' :: 'r' :: 't' :: ['\n'],
        ['#', ' ', 'B'], '\n' :: List.replicate 800 'x'] := by
    rw [reSplit, hlines]
    rw [scanAux, if_pos (by decide)]
    rw [scanAux, if_neg (by decide), if_neg (by decide)]
    rw [scanAux, if_pos (by decide)]
    rw [scanAux, if_neg (by simp only [hxh]; simp)]
    simp only [List.cons_append, List.nil_append, List.append_nil, joinN]
  rw [split_markdown, hscan]
  simp only [List.drop_succ_cons, List.drop_zero]
  rw [pairUp, pairUp, pairUp]
  rw [splitLoop_cons_keep _ _ _ _ _ _ (by rfl)]
  rw [splitLoop_cons_close _ _ _ _ _ _ (by decide) (by
    simp only [List.length_append, List.length_cons, List.length_replicate,
      List.length_nil]
    norm_num)]
  rw [splitLoop_nil_emit _ _ _ (by rw [show (['#', ' ', 'B'] ++
    '\n' :: List.replicate 800 'x').isEmpty = false from rfl])]
  have hstrip1 : pyStrip ((([] : List Char) ++ ['#', ' ', 'A']) ++
      '\n' :: 's' :: 'h' :: 'o' :: 'r' :: 't' :: ['\n']) = "# A\nshort".toList := by
    decide
  have hstrip2 : pyStrip (['#', ' ', 'B'] ++ '\n' :: List.replicate 800 'x') =
      "# B\n".toList ++ List.replicate 800 'x' := by
    rw [pyStrip_eq_self]
    · rfl
    · intro c hc
      rw [show (['#', ' ', 'B'] ++ '\n' :: List.replicate 800 'x').head? = some '#'
        from rfl] at hc
      simp only [Option.some.injEq] at hc
      rw [← hc]
      decide
    · intro c hc
      rw [List.getLast?_append_of_ne_nil _ (List.cons_ne_nil _ _)] at hc
      rw [show ('\n' :: List.replicate 800 'x') = ['\n'] ++ List.replicate 800 'x'
        from rfl] at hc
      rw [List.getLast?_append_of_ne_nil _ hx_ne] at hc
      rw [← List.head?_reverse, List.reverse_replicate, hx_cons] at hc
      simp only [List.head?_cons, Option.some.injEq] at hc
      rw [← hc]
      decide
  rw [hstrip1, hstrip2]
  rfl

lemma sectionUrls_eq_filterMap (base_url : List Char) (es : List NavEntry) :
    sectionUrls base_url es = es.filterMap (fun e =>
      match e.url with
      | some u => if u.isEmpty then none else some (base_url ++ u)
      | none => none) := by
  induction es with
  | nil => rfl
  | cons i rest ih =>
    rw [sectionUrls]
    cases hu : i.url with
    | none => simp [List.filterMap_cons, hu, ih]
    | some u =>
      by_cases he : u = []
      · simp [List.filterMap_cons, hu, he, ih]
      · have he2 : u.isEmpty = false := isEmpty_false_of_ne_nil he
        simp [List.filterMap_cons, hu, he, he2, ih]

/-- C5: URL discovery visits sections in order and entries within each
section in order, keeps `base_url ++ url` for exactly the entries whose
`url` is present and non-empty (missing/null/empty skipped without
disturbing order), and in particular the spec's example tree yields
`[base ++ "/a", base ++ "/b", base ++ "/c"]`. -/
theorem get_help_docs_urls_ordering :
    (∀ (base_url : List Char) (tree : List NavSection),
      get_help_docs_urls base_url tree = discoverUrlsSpec base_url tree) ∧
    (∀ base_url : List Char,
      get_help_docs_urls base_url
        [⟨[⟨some "/a".toList⟩, ⟨none⟩, ⟨some "/b".toList⟩]⟩, ⟨[⟨some "/c".toList⟩]⟩] =
        [base_url ++ "/a".toList, base_url ++ "/b".toList, base_url ++ "/c".toList]) := by
  have hmain : ∀ (base_url : List Char) (tree : List NavSection),
      get_help_docs_urls base_url tree = discoverUrlsSpec base_url tree := by
    intro base_url tree
    induction tree with
    | nil => rfl
    | cons l1 rest ih =>
      rw [get_help_docs_urls, ih, sectionUrls_eq_filterMap]
      simp [discoverUrlsSpec, List.filterMap_append]
  refine ⟨hmain, fun base_url => ?_⟩
  rw [hmain]
  simp [discoverUrlsSpec, List.filterMap_cons]

/-- C6: per-document failure isolation in `scrapping_notion`: the final
chunk sequence is the in-order concatenation of the chunks of exactly the
successfully read documents, and the failure log records exactly the failed
URLs, one entry each, in order. -/
theorem scrapping_notion_failure_isolation
    (read : List Char → Except (List Char) (List Char)) (urls : List (List Char)) :
    (scrapping_notion read urls).1 =
      (urls.map (fun u =>
        match read u with
        | .ok content => split_markdown content 750
        | .error _ => [])).flatten ∧
    (scrapping_notion read urls).2 =
      urls.filter (fun u =>
        match read u with
        | .ok _ => false
        | .error _ => true) := by
  have hloop : ∀ (us : List (List Char)) (chunks failures : List (List Char)),
      scrapLoop read us chunks failures =
        (chunks ++ (us.map (fun u =>
          match read u with
          | .ok content => split_markdown content 750
          | .error _ => [])).flatten,
         failures ++ us.filter (fun u =>
          match read u with
          | .ok _ => false
          | .error _ => true)) := by
    intro us
    induction us with
    | nil => intro chunks failures; simp [scrapLoop]
    | cons url rest ih =>
      intro chunks failures
      rw [scrapLoop]
      cases hr : read url with
      | ok content =>
        dsimp only
        rw [ih]
        simp [List.filter_cons, hr]
      | error e =>
        dsimp only
        rw [ih]
        simp [List.filter_cons, hr]
  constructor
  · rw [scrapping_notion, hloop]; simp
  · rw [scrapping_notion, hloop]; simp

/-- C7: `fetch_url` never raises and never retries on HTTP error statuses:
for every transport and URL it returns the response body on the first
attempt, even though a genuine `raise_for_status()` call would have raised
on that response whenever its status is 4xx/5xx. -/
theorem fetch_url_ignores_http_status (get : List Char → Response) (url : List Char) :
    fetch_url_with_retry get url = (.ok (get url).text, 1) ∧
    (400 ≤ (get url).status → (get url).status < 600 →
      (get url).raise_for_status = .error (get url).status) := by
  constructor
  · rfl
  · intro h4 h6
    rw [Response.raise_for_status, if_pos ⟨h4, h6⟩]

/-- C7 (witness): a 404 response is returned as a successful body by
`fetch_url` on the first attempt, although `raise_for_status()` would have
raised on it. -/
theorem fetch_url_ignores_http_status_witness :
    fetch_url_with_retry (fun _ => ⟨404, "err".toList⟩) "u".toList =
      (.ok "err".toList, 1) ∧
    Response.raise_for_status ⟨404, "err".toList⟩ = .error 404 :=
  ⟨(fetch_url_ignores_http_status (fun _ => ⟨404, "err".toList⟩) "u".toList).1,
   (fetch_url_ignores_http_status (fun _ => ⟨404, "err".toList⟩) "u".toList).2
     (by norm_num) (by norm_num)⟩

lemma hexVal_hexDigitChar {n : Nat} (hn : n < 16) :
    hexVal (hexDigitChar n) = some n := by
  interval_cases n <;> decide

lemma pyReprQuote_cases (s : List Char) :
    pyReprQuote s = '\'' ∨ pyReprQuote s = '"' := by
  rw [pyReprQuote]
  by_cases h : '\'' ∈ s ∧ ¬ ('"' ∈ s)
  · rw [if_pos h]; right; rfl
  · rw [if_neg h]; left; rfl

lemma psb_quote (q : Char) (hq : q = '\'' ∨ q = '"') (T : List Char) :
    parseStringBody q (q :: T) = some ([], T) := by
  rcases hq with h | h <;> subst h <;> rfl

lemma psb_esc (q e d : Char) (T : List Char)
    (hcase : (e = '\\' ∧ d = '\\') ∨ (e = '\'' ∧ d = '\'') ∨ (e = '"' ∧ d = '"') ∨
      (e = 'n' ∧ d = '\n') ∨ (e = 'r' ∧ d = '\r') ∨ (e = 't' ∧ d = '\t')) :
    parseStringBody q ('\\' :: e :: T) =
      (parseStringBody q T).map (fun r => (d :: r.1, r.2)) := by
  rcases hcase with ⟨he, hd⟩ | ⟨he, hd⟩ | ⟨he, hd⟩ | ⟨he, hd⟩ | ⟨he, hd⟩ | ⟨he, hd⟩ <;>
    subst he <;> subst hd <;> rfl

lemma psb_hex (q h1c h2c : Char) (T : List Char) {a b : Nat}
    (ha : hexVal h1c = some a) (hb : hexVal h2c = some b) :
    parseStringBody q ('\\' :: 'x' :: h1c :: h2c :: T) =
      (parseStringBody q T).map (fun r => (Char.ofNat (16 * a + b) :: r.1, r.2)) := by
  have step1 : parseStringBody q ('\\' :: 'x' :: h1c :: h2c :: T) =
      psbAux q (h1c :: h2c :: T) .hex0 := rfl
  have step2 : psbAux q (h1c :: h2c :: T) .hex0 =
      (match hexVal h1c with
       | some a => psbAux q (h2c :: T) (.hex1 a)
       | none => none) := rfl
  have step3 : psbAux q (h2c :: T) (.hex1 a) =
      (match hexVal h2c with
       | some b => (psbAux q T .normal).map
           (fun r => (Char.ofNat (16 * a + b) :: r.1, r.2))
       | none => none) := rfl
  rw [step1, step2, ha]
  dsimp only
  rw [step3, hb]
  dsimp only
  rfl

lemma psb_lit (q c : Char) (T : List Char) (h1 : ¬ c = '\\') (h2 : ¬ c = q) :
    parseStringBody q (c :: T) =
      (parseStringBody q T).map (fun r => (c :: r.1, r.2)) := by
  rw [parseStringBody, psbAux]
  rw [if_neg h1, if_neg h2]
  rfl

lemma parseStringBody_repr (q : Char) (hq : q = '\'' ∨ q = '"') (s : List Char) :
    ∀ rest : List Char,
      parseStringBody q ((s.map (pyReprEscape q)).flatten ++ q :: rest) = some (s, rest) := by
  induction s with
  | nil =>
    intro rest
    simpa using psb_quote q hq rest
  | cons c s' ih =>
    intro rest
    rw [List.map_cons, List.flatten_cons, List.append_assoc, pyReprEscape]
    by_cases h1 : c = '\\'
    · subst h1
      rw [if_pos rfl]
      simp only [List.cons_append, List.nil_append]
      rw [psb_esc _ _ _ _ (by left; exact ⟨rfl, rfl⟩), ih]
      rfl
    · rw [if_neg h1]
      by_cases h2 : c = q
      · rw [if_pos h2]
        subst h2
        simp only [List.cons_append, List.nil_append]
        rcases hq with h | h <;> subst h
        · rw [psb_esc _ _ _ _ (by right; left; exact ⟨rfl, rfl⟩), ih]
          rfl
        · rw [psb_esc _ _ _ _ (by right; right; left; exact ⟨rfl, rfl⟩), ih]
          rfl
      · rw [if_neg h2]
        by_cases h3 : c = '\n'
        · subst h3
          rw [if_pos rfl]
          simp only [List.cons_append, List.nil_append]
          rw [psb_esc _ _ _ _ (by right; right; right; left; exact ⟨rfl, rfl⟩), ih]
          rfl
        · rw [if_neg h3]
          by_cases h4 : c = '\r'
          · subst h4
            rw [if_pos rfl]
            simp only [List.cons_append, List.nil_append]
            rw [psb_esc _ _ _ _
              (by right; right; right; right; left; exact ⟨rfl, rfl⟩), ih]
            rfl
          · rw [if_neg h4]
            by_cases h5 : c = '\t'
            · subst h5
              rw [if_pos rfl]
              simp only [List.cons_append, List.nil_append]
              rw [psb_esc _ _ _ _
                (by right; right; right; right; right; exact ⟨rfl, rfl⟩), ih]
              rfl
            · rw [if_neg h5]
              by_cases h6 : c.toNat < 32 || c.toNat = 127
              · rw [if_pos h6]
                have hlt : c.toNat < 256 := by
                  rcases Bool.or_eq_true_iff.mp h6 with h | h
                  · have := of_decide_eq_true h; omega
                  · have := of_decide_eq_true h; omega
                have hdiv : c.toNat / 16 < 16 := by omega
                have hmod : c.toNat % 16 < 16 := Nat.mod_lt _ (by norm_num)
                simp only [List.cons_append, List.nil_append]
                rw [psb_hex _ _ _ _ (hexVal_hexDigitChar hdiv) (hexVal_hexDigitChar hmod)]
                rw [ih]
                rw [show 16 * (c.toNat / 16) + c.toNat % 16 = c.toNat from
                  Nat.div_add_mod _ _]
                rw [Char.ofNat_toNat]
                rfl
              · rw [if_neg h6]
                simp only [List.cons_append, List.nil_append]
                rw [psb_lit _ _ _ h1 h2, ih]
                rfl

lemma length_le_length_flatten :
    ∀ ls : List (List Char), (∀ x ∈ ls, x ≠ []) → ls.length ≤ ls.flatten.length := by
  intro ls
  induction ls with
  | nil => intro _; simp
  | cons x ls' ih =>
    intro hne
    have hx : 1 ≤ x.length :=
      List.length_pos.mpr (hne x (List.mem_cons_self _ _))
    have := ih (fun y hy => hne y (List.mem_cons_of_mem _ hy))
    simp only [List.length_cons, List.flatten_cons, List.length_append]
    omega

lemma parseItemsF_render :
    ∀ (items : List (List Char)) (fuel : Nat), items.length ≤ fuel →
      parseItemsF fuel ((items.map (fun item =>
        "    ".toList ++ pyRepr item ++ ",\n".toList)).flatten ++ "]\n".toList) =
        some items := by
  intro items
  induction items with
  | nil =>
    intro fuel _
    cases fuel <;> rfl
  | cons item items' ih =>
    intro fuel hfuel
    cases fuel with
    | zero => simp at hfuel
    | succ f =>
      rw [List.map_cons, List.flatten_cons, List.append_assoc]
      generalize hR : (items'.map (fun item =>
        "    ".toList ++ pyRepr item ++ ",\n".toList)).flatten ++ "]\n".toList = R
      rw [show "    ".toList = [' ', ' ', ' ', ' '] from rfl,
        show ",\n".toList = [',', '\n'] from rfl]
      simp only [pyRepr, List.cons_append, List.nil_append, List.append_assoc]
      have hq := pyReprQuote_cases item
      rw [show parseItemsF (f + 1) (' ' :: ' ' :: ' ' :: ' ' :: pyReprQuote item ::
          ((item.map (pyReprEscape (pyReprQuote item))).flatten ++
            pyReprQuote item :: ',' :: '\n' :: R)) =
        (if pyReprQuote item = '\'' ∨ pyReprQuote item = '"' then
          match parseStringBody (pyReprQuote item)
              ((item.map (pyReprEscape (pyReprQuote item))).flatten ++
                pyReprQuote item :: ',' :: '\n' :: R) with
          | some (s, rest2) =>
            match rest2 with
            | ',' :: '\n' :: rest3 =>
              (parseItemsF f rest3).map (fun items => s :: items)
            | _ => none
          | none => none
        else none) from rfl]
      rw [if_pos hq]
      rw [parseStringBody_repr _ hq item]
      dsimp only
      have ihr := ih f (by simp at hfuel; omega)
      rw [hR] at ihr
      show Option.map (fun items => item :: items) (parseItemsF f R) =
        some (item :: items')
      rw [ihr]
      rfl

/-- C9: the file written by `save_list_to_file` is a re-parseable list
literal: reading it back yields exactly the same ordered list of strings,
byte for byte. -/
theorem save_list_to_file_roundtrip (data_list : List (List Char)) :
    parseResultsFile (save_list_to_file data_list) = some data_list := by
  have hne : ∀ x ∈ (data_list.map (fun item =>
      "    ".toList ++ pyRepr item ++ ",\n".toList)), x ≠ [] := by
    intro x hx
    obtain ⟨item, _, hitem⟩ := List.mem_map.mp hx
    rw [← hitem]
    rw [show "    ".toList = [' ', ' ', ' ', ' '] from rfl]
    simp
  have hlen : data_list.length ≤ ((data_list.map (fun item =>
      "    ".toList ++ pyRepr item ++ ",\n".toList)).flatten ++ "]\n".toList).length := by
    have h1 := length_le_length_flatten _ hne
    have h2 : (data_list.map (fun item =>
        "    ".toList ++ pyRepr item ++ ",\n".toList)).length = data_list.length := by
      simp
    rw [List.length_append]
    omega
  have hfile : save_list_to_file data_list = '[' :: '\n' ::
      ((data_list.map (fun item =>
        "    ".toList ++ pyRepr item ++ ",\n".toList)).flatten ++ "]\n".toList) := rfl
  rw [hfile]
  rw [show parseResultsFile ('[' :: '\n' ::
      ((data_list.map (fun item =>
        "    ".toList ++ pyRepr item ++ ",\n".toList)).flatten ++ "]\n".toList)) =
    parseItemsF ((data_list.map (fun item =>
        "    ".toList ++ pyRepr item ++ ",\n".toList)).flatten ++ "]\n".toList).length
      ((data_list.map (fun item =>
        "    ".toList ++ pyRepr item ++ ",\n".toList)).flatten ++ "]\n".toList) from rfl]
  exact parseItemsF_render data_list _ hlen

lemma head?_dropWhile_not (p : Char → Bool) (l : List Char) {h : Char}
    (hh : (l.dropWhile p).head? = some h) : p h = false := by
  induction l with
  | nil => simp at hh
  | cons c t ih =>
    rw [List.dropWhile_cons] at hh
    cases hc : p c with
    | true => rw [hc] at hh; simp at hh; exact ih hh
    | false => rw [hc] at hh; simp at hh; rw [← hh]; exact hc

lemma dropWhile_eq_self_of_head (p : Char → Bool) (l : List Char)
    (h : ∀ c, l.head? = some c → p c = false) : l.dropWhile p = l := by
  cases l with
  | nil => rfl
  | cons c t =>
    rw [List.dropWhile_cons, h c rfl]
    simp

lemma getLast?_dropWhile (p : Char → Bool) (l : List Char)
    (hne : l.dropWhile p ≠ []) : (l.dropWhile p).getLast? = l.getLast? := by
  conv_rhs => rw [← List.takeWhile_append_dropWhile (p := p) (l := l)]
  rw [List.getLast?_append_of_ne_nil _ hne]

lemma pyStrip_idem (s : List Char) : pyStrip (pyStrip s) = pyStrip s := by
  by_cases hv0 : (s.dropWhile isSpaceChar).reverse.dropWhile isSpaceChar = []
  · have hs0 : pyStrip s = [] := by
      rw [pyStrip, hv0]
      rfl
    rw [hs0]
    rfl
  · have hps : pyStrip s =
        ((s.dropWhile isSpaceChar).reverse.dropWhile isSpaceChar).reverse := rfl
    rw [hps, pyStrip]
    have h1 : ((s.dropWhile isSpaceChar).reverse.dropWhile isSpaceChar).reverse.dropWhile
        isSpaceChar =
        ((s.dropWhile isSpaceChar).reverse.dropWhile isSpaceChar).reverse := by
      apply dropWhile_eq_self_of_head
      intro c hc
      rw [List.head?_reverse] at hc
      rw [getLast?_dropWhile _ _ hv0, List.getLast?_reverse] at hc
      exact head?_dropWhile_not _ _ hc
    rw [h1, List.reverse_reverse]
    rw [dropWhile_eq_self_of_head _ _ (fun c hc => head?_dropWhile_not _ _ hc)]

lemma mem_pyStrip {c : Char} {s : List Char} (h : c ∈ pyStrip s) : c ∈ s := by
  rw [pyStrip, List.mem_reverse] at h
  have h2 := (List.dropWhile_sublist _).subset h
  rw [List.mem_reverse] at h2
  exact (List.dropWhile_sublist _).subset h2

lemma mem_joinN {c : Char} : ∀ {ls : List (List Char)},
    c ∈ joinN ls → c = '\n' ∨ ∃ l ∈ ls, c ∈ l := by
  intro ls
  induction ls using joinN.induct with
  | case1 => intro h; simp [joinN] at h
  | case2 l => intro h; rw [joinN] at h; exact Or.inr ⟨l, by simp, h⟩
  | case3 l l2 ls ih =>
    intro h
    rw [joinN] at h
    rcases List.mem_append.mp h with h1 | h1
    · exact Or.inr ⟨l, by simp, h1⟩
    · rcases List.mem_cons.mp h1 with h2 | h2
      · exact Or.inl h2
      · rcases ih h2 with h3 | ⟨l', hl', hc'⟩
        · exact Or.inl h3
        · exact Or.inr ⟨l', List.mem_cons_of_mem _ hl', hc'⟩

lemma linesOf_no_nl : ∀ (t : List Char), ∀ l ∈ linesOf t, '\n' ∉ l := by
  intro t
  induction t with
  | nil =>
    intro l hl
    simp [linesOf] at hl
    subst hl
    simp
  | cons c rest ih =>
    intro l hl
    rw [linesOf] at hl
    by_cases hc : c = '\n'
    · rw [hc] at hl
      simp only [if_true] at hl
      rcases List.mem_cons.mp hl with h1 | h1
      · subst h1; simp
      · exact ih l h1
    · simp only [hc, if_false] at hl
      cases hr : linesOf rest with
      | nil => exact absurd hr (linesOf_ne_nil rest)
      | cons l0 ls =>
        rw [hr] at hl
        rcases List.mem_cons.mp hl with h1 | h1
        · subst h1
          intro hmem
          rcases List.mem_cons.mp hmem with h2 | h2
          · exact hc h2.symm
          · exact ih l0 (by rw [hr]; exact List.mem_cons_self _ _) h2
        · exact ih l (by rw [hr]; exact List.mem_cons_of_mem _ h1)

lemma map_pyStrip_id : ∀ (xs : List (List Char)),
    (∀ x ∈ xs, pyStrip x = x) → xs.map pyStrip = xs := by
  intro xs
  induction xs with
  | nil => intro _; rfl
  | cons x xs' ih =>
    intro h
    rw [List.map_cons, h x (List.mem_cons_self _ _),
      ih (fun y hy => h y (List.mem_cons_of_mem _ hy))]

lemma noTripleAux_cons_nl (rest : List Char) (run : Nat) :
    noTripleAux ('\n' :: rest) run =
      if 2 ≤ run then false else noTripleAux rest (run + 1) := by
  rw [noTripleAux, if_pos rfl]

lemma noTripleAux_cons_other {c : Char} (hc : ¬ c = '\n') (rest : List Char) (run : Nat) :
    noTripleAux (c :: rest) run = noTripleAux rest 0 := by
  rw [noTripleAux, if_neg hc]

lemma noTripleAux_replicate (X : List Char) (k : Nat) (hk : k ≤ 2) :
    noTripleAux (List.replicate k '\n' ++ X) 0 = noTripleAux X k := by
  interval_cases k <;> rfl

lemma noTripleAux_collapseAux : ∀ (j : List Char) (run : Nat),
    noTripleAux (collapseAux j run) 0 = true := by
  intro j
  induction j with
  | nil =>
    intro run
    rw [collapseAux, show List.replicate (min run 2) '\n' =
      List.replicate (min run 2) '\n' ++ [] from (List.append_nil _).symm,
      noTripleAux_replicate _ _ (Nat.min_le_right _ _)]
    rfl
  | cons c rest ih =>
    intro run
    by_cases hc : c = '\n'
    · subst hc
      rw [collapseAux, if_pos rfl]
      exact ih _
    · rw [collapseAux, if_neg hc,
        noTripleAux_replicate _ _ (Nat.min_le_right _ _),
        noTripleAux_cons_other hc]
      exact ih _

lemma collapseAux_of_noTriple : ∀ (j : List Char) (run : Nat), run ≤ 2 →
    noTripleAux j run = true → collapseAux j run = List.replicate run '\n' ++ j := by
  intro j
  induction j with
  | nil =>
    intro run hrun _
    rw [collapseAux, Nat.min_eq_left hrun, List.append_nil]
  | cons c rest ih =>
    intro run hrun hnt
    by_cases hc : c = '\n'
    · subst hc
      rw [noTripleAux_cons_nl] at hnt
      by_cases h2 : 2 ≤ run
      · rw [if_pos h2] at hnt; simp at hnt
      · rw [if_neg h2] at hnt
        rw [collapseAux, if_pos rfl, ih (run + 1) (by omega) hnt]
        rw [List.replicate_succ']
        simp
    · rw [noTripleAux_cons_other hc] at hnt
      rw [collapseAux, if_neg hc, Nat.min_eq_left hrun, ih 0 (by omega) hnt]
      simp

lemma noTripleAux_prefix : ∀ (t u : List Char) (run : Nat),
    noTripleAux (t ++ u) run = true → noTripleAux t run = true := by
  intro t
  induction t with
  | nil => intro u run _; rfl
  | cons c t' ih =>
    intro u run h
    rw [List.cons_append] at h
    by_cases hc : c = '\n'
    · subst hc
      rw [noTripleAux_cons_nl] at h ⊢
      by_cases h2 : 2 ≤ run
      · rw [if_pos h2] at h; simp at h
      · rw [if_neg h2] at h ⊢
        exact ih u _ h
    · rw [noTripleAux_cons_other hc] at h ⊢
      exact ih u _ h

lemma mem_collapseAux {c : Char} : ∀ (j : List Char) (run : Nat),
    c ∈ collapseAux j run → c = '\n' ∨ c ∈ j := by
  intro j
  induction j with
  | nil =>
    intro run h
    rw [collapseAux] at h
    exact Or.inl (List.eq_of_mem_replicate h)
  | cons d rest ih =>
    intro run h
    by_cases hd : d = '\n'
    · subst hd
      rw [collapseAux, if_pos rfl] at h
      rcases ih _ h with h1 | h1
      · exact Or.inl h1
      · exact Or.inr (List.mem_cons_of_mem _ h1)
    · rw [collapseAux, if_neg hd] at h
      rcases List.mem_append.mp h with h1 | h1
      · exact Or.inl (List.eq_of_mem_replicate h1)
      · rcases List.mem_cons.mp h1 with h2 | h2
        · exact Or.inr (h2 ▸ List.mem_cons_self _ _)
        · rcases ih _ h2 with h3 | h3
          · exact Or.inl h3
          · exact Or.inr (List.mem_cons_of_mem _ h3)

lemma collapseAux_pos_start : ∀ (t : List Char) (run : Nat), 1 ≤ run →
    ∃ C : List Char, collapseAux t run = '\n' :: C := by
  intro t
  induction t with
  | nil =>
    intro run hrun
    have h1 : 1 ≤ min run 2 := le_min hrun (by omega)
    obtain ⟨k, hk⟩ : ∃ k, min run 2 = k + 1 := ⟨min run 2 - 1, by omega⟩
    exact ⟨List.replicate k '\n', by rw [collapseAux, hk, List.replicate_succ]⟩
  | cons c rest ih =>
    intro run hrun
    by_cases hc : c = '\n'
    · subst hc
      rw [collapseAux, if_pos rfl]
      exact ih _ (by omega)
    · have h1 : 1 ≤ min run 2 := le_min hrun (by omega)
      obtain ⟨k, hk⟩ : ∃ k, min run 2 = k + 1 := ⟨min run 2 - 1, by omega⟩
      refine ⟨List.replicate k '\n' ++ c :: collapseAux rest 0, ?_⟩
      rw [collapseAux, if_neg hc, hk, List.replicate_succ]
      rfl

lemma collapseAux_line_head : ∀ (l : List Char), l ≠ [] → '\n' ∉ l →
    ∀ (rest : List Char) (run : Nat),
      collapseAux (l ++ rest) run =
        List.replicate (min run 2) '\n' ++ l ++ collapseAux rest 0 := by
  intro l
  induction l with
  | nil => intro h; exact absurd rfl h
  | cons c l' ih =>
    intro _ hnl rest run
    have hc : ¬ c = '\n' := fun h => hnl (h ▸ List.mem_cons_self _ _)
    rw [List.cons_append, collapseAux, if_neg hc]
    by_cases hl' : l' = []
    · subst hl'
      simp
    · rw [ih hl' (fun h => hnl (List.mem_cons_of_mem _ h)) rest 0]
      simp

lemma linesOf_append_no_nl : ∀ (l : List Char), '\n' ∉ l →
    ∀ (X x0 : List Char) (xs : List (List Char)), linesOf X = x0 :: xs →
      linesOf (l ++ X) = (l ++ x0) :: xs := by
  intro l
  induction l with
  | nil => intro _ X x0 xs hX; simpa using hX
  | cons c l' ih =>
    intro hnl X x0 xs hX
    have hc : ¬ c = '\n' := fun h => hnl (h ▸ List.mem_cons_self _ _)
    rw [List.cons_append, linesOf, if_neg hc,
      ih (fun h => hnl (List.mem_cons_of_mem _ h)) X x0 xs hX]
    rfl

lemma linesOf_replicate_nl : ∀ (k : Nat) (X : List Char),
    linesOf (List.replicate k '\n' ++ X) =
      List.replicate k ([] : List Char) ++ linesOf X := by
  intro k
  induction k with
  | zero => intro X; simp
  | succ k ih =>
    intro X
    rw [List.replicate_succ, List.cons_append, linesOf, if_pos rfl, ih,
      List.replicate_succ, List.cons_append]

lemma slAux_pieces_no_break : ∀ (s acc : List Char) (skip : Bool),
    (∀ c ∈ acc, isLineBreakChar c = false) →
    ∀ piece ∈ slAux s acc skip, ∀ c ∈ piece, isLineBreakChar c = false := by
  intro s
  induction s with
  | nil =>
    intro acc skip hacc piece hp c hc
    rw [slAux] at hp
    by_cases ha : acc.isEmpty
    · rw [if_pos ha] at hp; simp at hp
    · rw [if_neg ha] at hp
      rw [List.mem_singleton] at hp
      subst hp
      exact hacc c (List.mem_reverse.mp hc)
  | cons d rest ih =>
    intro acc skip hacc piece hp c hc
    rw [slAux] at hp
    split_ifs at hp with h1 h2 h3
    · exact ih [] false (by simp) piece hp c hc
    · rcases List.mem_cons.mp hp with he | he
      · subst he; exact hacc c (List.mem_reverse.mp hc)
      · exact ih [] true (by simp) piece he c hc
    · rcases List.mem_cons.mp hp with he | he
      · subst he; exact hacc c (List.mem_reverse.mp hc)
      · exact ih [] false (by simp) piece he c hc
    · refine ih (d :: acc) false ?_ piece hp c hc
      intro e hme
      rcases List.mem_cons.mp hme with he | he
      · subst he; simpa using h3
      · exact hacc e he

lemma slAux_eq_linesOf : ∀ (r : List Char),
    (∀ c ∈ r, isLineBreakChar c = true → c = '\n') →
    ∀ acc : List Char,
      slAux r acc false =
        (match linesOf r with
         | [] => []
         | l :: ls =>
           if ((acc.reverse ++ l) :: ls).getLast? = some ([] : List Char) then
             ((acc.reverse ++ l) :: ls).dropLast
           else (acc.reverse ++ l) :: ls) := by
  intro r
  induction r with
  | nil =>
    intro _ acc
    rw [show linesOf [] = [[]] from rfl]
    dsimp only
    rw [slAux]
    by_cases ha : acc = []
    · subst ha; simp
    · have h2 : acc.reverse ≠ ([] : List Char) :=
        fun h => ha (List.reverse_eq_nil_iff.mp h)
      rw [if_neg (fun h => ha (List.isEmpty_iff.mp h))]
      simp [h2]
  | cons d rest ih =>
    intro honly acc
    have honly' : ∀ c ∈ rest, isLineBreakChar c = true → c = '\n' :=
      fun c hc => honly c (List.mem_cons_of_mem _ hc)
    by_cases hd : d = '\n'
    · subst hd
      rw [slAux, if_neg (by simp), if_neg (by decide), if_pos (by decide)]
      rw [ih honly' []]
      rw [show linesOf ('\n' :: rest) = [] :: linesOf rest from by
        rw [linesOf, if_pos rfl]]
      cases hlr : linesOf rest with
      | nil => exact absurd hlr (linesOf_ne_nil rest)
      | cons l0 ls0 =>
        dsimp only
        simp only [List.reverse_nil, List.nil_append, List.append_nil]
        rw [List.getLast?_cons_cons]
        by_cases hcond : ((l0 :: ls0).getLast? = some ([] : List Char))
        · rw [if_pos hcond, if_pos hcond,
            List.dropLast_cons_of_ne_nil (List.cons_ne_nil _ _)]
        · rw [if_neg hcond, if_neg hcond]
    · have hdlb : isLineBreakChar d = false := by
        cases hb : isLineBreakChar d
        · rfl
        · exact absurd (honly d (List.mem_cons_self _ _) hb) hd
      have hdr : ¬ d = '\r' := fun h => by
        rw [h] at hdlb; exact absurd hdlb (by decide)
      rw [slAux, if_neg (by simp), if_neg hdr, if_neg (by simp [hdlb])]
      rw [ih honly' (d :: acc)]
      cases hlr : linesOf rest with
      | nil => exact absurd hlr (linesOf_ne_nil rest)
      | cons l0 ls0 =>
        rw [show linesOf (d :: rest) = (d :: l0) :: ls0 from by
          rw [linesOf, if_neg hd, hlr]]
        dsimp only
        simp only [List.reverse_cons, List.append_assoc, List.singleton_append]

lemma joinN_append_empty : ∀ (ls : List (List Char)), ls ≠ [] →
    joinN (ls ++ [([] : List Char)]) = joinN ls ++ ['\n'] := by
  intro ls
  induction ls with
  | nil => intro h; exact absurd rfl h
  | cons a t ih =>
    intro _
    cases t with
    | nil => rfl
    | cons b t' =>
      show joinN (a :: b :: (t' ++ [[]])) = joinN (a :: b :: t') ++ ['\n']
      rw [joinN_cons_cons, joinN_cons_cons,
        show b :: (t' ++ [([] : List Char)]) = (b :: t') ++ [[]] from rfl,
        ih (List.cons_ne_nil _ _)]
      simp

lemma collapse_lines_stripped : ∀ (ls : List (List Char)) (run : Nat),
    (∀ l ∈ ls, pyStrip l = l ∧ '\n' ∉ l) →
    ∀ x ∈ linesOf (collapseAux (joinN ls) run), pyStrip x = x := by
  intro ls
  induction ls with
  | nil =>
    intro run _ x hx
    rw [show joinN ([] : List (List Char)) = [] from rfl, collapseAux] at hx
    have h2 := linesOf_replicate_nl (min run 2) []
    rw [List.append_nil] at h2
    rw [h2] at hx
    rcases List.mem_append.mp hx with h1 | h1
    · rw [List.eq_of_mem_replicate h1]; rfl
    · rw [show linesOf ([] : List Char) = [[]] from rfl] at h1
      rw [List.mem_singleton.mp h1]; rfl
  | cons l ls' ih =>
    intro run hyp x hx
    by_cases hl : l = []
    · subst hl
      by_cases hls' : ls' = ([] : List (List Char))
      · subst hls'
        rw [show joinN [([] : List Char)] = [] from rfl, collapseAux] at hx
        have h2 := linesOf_replicate_nl (min run 2) []
        rw [List.append_nil] at h2
        rw [h2] at hx
        rcases List.mem_append.mp hx with h1 | h1
        · rw [List.eq_of_mem_replicate h1]; rfl
        · rw [show linesOf ([] : List Char) = [[]] from rfl] at h1
          rw [List.mem_singleton.mp h1]; rfl
      · have hjoin : joinN ([] :: ls') = '\n' :: joinN ls' := by
          cases ls' with
          | nil => exact absurd rfl hls'
          | cons a t => rfl
        rw [hjoin, collapseAux, if_pos rfl] at hx
        exact ih (run + 1) (fun y hy => hyp y (List.mem_cons_of_mem _ hy)) x hx
    · obtain ⟨hstrip, hnl⟩ := hyp l (List.mem_cons_self _ _)
      by_cases hls' : ls' = ([] : List (List Char))
      · subst hls'
        have hc8 := collapseAux_line_head l hl hnl [] run
        rw [List.append_nil, show collapseAux [] 0 = [] from rfl,
          List.append_nil] at hc8
        rw [show joinN [l] = l from rfl, hc8, linesOf_replicate_nl] at hx
        rcases List.mem_append.mp hx with h1 | h1
        · rw [List.eq_of_mem_replicate h1]; rfl
        · rw [linesOf_no_newline l hnl] at h1
          rw [List.mem_singleton.mp h1]; exact hstrip
      · have hjoin : joinN (l :: ls') = l ++ '\n' :: joinN ls' := by
          cases ls' with
          | nil => exact absurd rfl hls'
          | cons a t => rfl
        rw [hjoin, collapseAux_line_head l hl hnl ('\n' :: joinN ls') run] at hx
        have hstep : collapseAux ('\n' :: joinN ls') 0 = collapseAux (joinN ls') 1 := by
          rw [collapseAux, if_pos rfl]
        rw [hstep] at hx
        obtain ⟨C, hC⟩ := collapseAux_pos_start (joinN ls') 1 (by omega)
        rw [hC, List.append_assoc, linesOf_replicate_nl] at hx
        have hlC : linesOf (l ++ '\n' :: C) = (l ++ []) :: linesOf C :=
          linesOf_append_no_nl l hnl ('\n' :: C) [] (linesOf C)
            (by rw [linesOf, if_pos rfl])
        rw [hlC, List.append_nil] at hx
        rcases List.mem_append.mp hx with h1 | h1
        · rw [List.eq_of_mem_replicate h1]; rfl
        · rcases List.mem_cons.mp h1 with h2 | h2
          · rw [h2]; exact hstrip
          · have hmem : x ∈ linesOf (collapseAux (joinN ls') 1) := by
              rw [hC, linesOf, if_pos rfl]
              exact List.mem_cons_of_mem _ h2
            exact ih 1 (fun y hy => hyp y (List.mem_cons_of_mem _ hy)) x hmem

lemma joinN_splitlines : ∀ (r : List Char),
    (∀ c ∈ r, isLineBreakChar c = true → c = '\n') →
    joinN (splitlines r) = dropTrailNl r := by
  intro r honly
  rw [splitlines, slAux_eq_linesOf r honly []]
  cases hlr : linesOf r with
  | nil => exact absurd hlr (linesOf_ne_nil r)
  | cons l ls =>
    dsimp only
    simp only [List.reverse_nil, List.nil_append]
    have hjr : joinN (l :: ls) = r := by rw [← hlr]; exact joinN_linesOf r
    by_cases hcond : ((l :: ls).getLast? = some ([] : List Char))
    · rw [if_pos hcond]
      cases ls with
      | nil =>
        have hl0 : l = [] := by simpa using hcond
        subst hl0
        have hr0 : r = [] := by rw [← hjr]; rfl
        rw [hr0]
        rfl
      | cons b t =>
        have hlsne : (b :: t) ≠ ([] : List (List Char)) := List.cons_ne_nil _ _
        rw [List.getLast?_cons_cons] at hcond
        have hgl : (b :: t).getLast hlsne = ([] : List Char) := by
          rw [List.getLast?_eq_getLast (b :: t) hlsne] at hcond
          exact Option.some.inj hcond
        have hdecomp : l :: b :: t = (l :: (b :: t).dropLast) ++ [([] : List Char)] := by
          conv_lhs => rw [show b :: t =
            (b :: t).dropLast ++ [(b :: t).getLast hlsne] from
              (List.dropLast_append_getLast hlsne).symm]
          rw [hgl]
          rfl
        have hr : r = joinN (l :: (b :: t).dropLast) ++ ['\n'] := by
          rw [← hjr]
          conv_lhs => rw [hdecomp]
          rw [joinN_append_empty _ (List.cons_ne_nil _ _)]
        have hrl : r.getLast? = some '\n' := by rw [hr]; simp
        rw [List.dropLast_cons_of_ne_nil hlsne, dropTrailNl, if_pos hrl]
        conv_rhs => rw [hr]
        rw [List.dropLast_concat]
    · rw [if_neg hcond, hjr, dropTrailNl]
      by_cases hrl : r.getLast? = some '\n'
      · exfalso
        have hne : (l :: ls) ≠ ([] : List (List Char)) := List.cons_ne_nil _ _
        have hLmem : (l :: ls).getLast hne ∈ l :: ls := List.getLast_mem hne
        have hLne : (l :: ls).getLast hne ≠ [] := by
          intro h
          apply hcond
          rw [List.getLast?_eq_getLast _ hne, h]
        have hjl : r.getLast? = ((l :: ls).getLast hne).getLast? := by
          rw [← hjr]
          conv_lhs => rw [show l :: ls =
            (l :: ls).dropLast ++ [(l :: ls).getLast hne] from
              (List.dropLast_append_getLast hne).symm]
          rw [joinN_append_single]
          exact List.getLast?_append_of_ne_nil _ hLne
        rw [hjl, List.getLast?_eq_getLast _ hLne] at hrl
        have hmemL : '\n' ∈ (l :: ls).getLast hne :=
          Option.some.inj hrl ▸ List.getLast_mem hLne
        exact linesOf_no_nl r ((l :: ls).getLast hne)
          (by rw [hlr]; exact hLmem) hmemL
      · rw [if_neg hrl]

/-- C8 (amended): applying the `processing_html` postprocessing (strip each
line, re-join with newlines, collapse newline runs) a second time returns the
first result with a single trailing newline, if present, removed; so it is
idempotent exactly on results not ending in `'\n'`. -/
theorem postprocessContent_second_application (s : List Char) :
    postprocessContent (postprocessContent s) = dropTrailNl (postprocessContent s) := by
  have hbf : ∀ piece ∈ splitlines s, ∀ c ∈ piece, isLineBreakChar c = false :=
    fun piece hp => slAux_pieces_no_break s [] false (by simp) piece hp
  have hlines : ∀ l ∈ (splitlines s).map pyStrip,
      pyStrip l = l ∧ ∀ c ∈ l, isLineBreakChar c = false := by
    intro l hl
    obtain ⟨piece, hpiece, hstrip⟩ := List.mem_map.mp hl
    refine ⟨by rw [← hstrip]; exact pyStrip_idem piece, ?_⟩
    intro c hc
    exact hbf piece hpiece c (mem_pyStrip (hstrip ▸ hc))
  have hr_def : postprocessContent s = collapseAux (joinN ((splitlines s).map pyStrip)) 0 := rfl
  set r := postprocessContent s with hrdef
  have honly : ∀ c ∈ r, isLineBreakChar c = true → c = '\n' := by
    intro c hc hbreak
    rw [hr_def] at hc
    rcases mem_collapseAux _ _ hc with h1 | h1
    · exact h1
    · rcases mem_joinN h1 with h2 | h2
      · exact h2
      · obtain ⟨l, hl, hcl⟩ := h2
        exact absurd hbreak (by rw [(hlines l hl).2 c hcl]; simp)
  have hnt : noTripleAux r 0 = true := by
    rw [hr_def]; exact noTripleAux_collapseAux _ _
  have hstripped : ∀ x ∈ linesOf r, pyStrip x = x := by
    rw [hr_def]
    refine collapse_lines_stripped ((splitlines s).map pyStrip) 0 ?_
    intro l hl
    refine ⟨(hlines l hl).1, fun hm => ?_⟩
    exact absurd ((hlines l hl).2 '\n' hm) (by decide)
  have hsub : ∀ x ∈ splitlines r, x ∈ linesOf r := by
    intro x hx
    rw [splitlines, slAux_eq_linesOf r honly []] at hx
    cases hlr : linesOf r with
    | nil => exact absurd hlr (linesOf_ne_nil r)
    | cons l ls =>
      rw [hlr] at hx
      simp only [List.reverse_nil, List.nil_append] at hx
      by_cases hcond : ((l :: ls).getLast? = some ([] : List Char))
      · rw [if_pos hcond] at hx
        exact (List.dropLast_sublist _).subset hx
      · rw [if_neg hcond] at hx
        exact hx
  have hmap : (splitlines r).map pyStrip = splitlines r :=
    map_pyStrip_id _ (fun x hx => hstripped x (hsub x hx))
  show collapseNewlines (joinN ((splitlines r).map pyStrip)) = dropTrailNl r
  rw [hmap, joinN_splitlines r honly]
  have hnt2 : noTripleAux (dropTrailNl r) 0 = true := by
    rw [dropTrailNl]
    by_cases hlast : r.getLast? = some '\n'
    · rw [if_pos hlast]
      have hrne : r ≠ [] := by intro h; rw [h] at hlast; simp at hlast
      refine noTripleAux_prefix r.dropLast [r.getLast hrne] 0 ?_
      rw [List.dropLast_append_getLast hrne]
      exact hnt
    · rw [if_neg hlast]; exact hnt
  rw [collapseNewlines]
  have hfin := collapseAux_of_noTriple (dropTrailNl r) 0 (by omega) hnt2
  simpa using hfin

/-- C8 counterexample: the postprocessing is not idempotent; on `"\n\n"` the
first application yields `"\n"` and the second yields `""`. -/
theorem postprocessContent_not_idempotent :
    postprocessContent (postprocessContent ['\n', '\n']) ≠
      postprocessContent ['\n', '\n'] := by decide
